import Mathlib

/-!
# Beat: a metronome window (`src/beat-window.c`)

A shallow embedding of the timer logic of `beat-window.c`:

* the interval computation of `setup_timer`, in IEEE-754 binary64 arithmetic
  (`gdouble`), with the two `(guint)` conversions;
* the handlers `beep`, `setup_timer`, `on_bpm_changed` and `play_toggled` as
  functions on an explicit state `World`, which holds the fields of
  `struct _BeatWindow` that the handlers touch, the state of the "play"
  action, the timeout sources attached to the GLib main loop, and the
  observable effects (sound cues requested, lines printed to stderr).

Everything the C code obtains from the environment is an explicit argument:
the id returned by `g_timeout_add_full`, and the status returned by
`ca_context_play`.
-/

namespace Beat

/-! ## Binary64 arithmetic

`gdouble` is taken to be IEEE-754 binary64 with round-to-nearest, ties-to-even,
and no excess precision.  Only non-negative values occur in `setup_timer`.  A
value is kept as a pair `m * 2 ^ e`; the exponent is not bounded, which agrees
with binary64 as long as results are normal numbers (`Binary64.normal`).
-/

/-- Number of binary digits of `n`, by halving at most `fuel` times. -/
def bitLenAux : Nat → Nat → Nat
  | 0, _ => 0
  | fuel + 1, n => if n = 0 then 0 else bitLenAux fuel (n / 2) + 1

/-- Position of the leading binary digit of `n`, that is `⌊log₂ n⌋` for `n > 0`. -/
def ilog2 (n : Nat) : Nat := bitLenAux n n - 1

/-- A non-negative finite binary floating-point value `m * 2 ^ e`. -/
structure Binary64 where
  m : Nat
  e : Int
deriving DecidableEq, Repr

/-- The rational number denoted by a floating-point value. -/
def Binary64.toRat (x : Binary64) : ℚ := (x.m : ℚ) * (2 : ℚ) ^ x.e

/-- An unsigned integer converted to `gdouble` (exact below `2 ^ 53`). -/
def Binary64.ofNat (n : Nat) : Binary64 := ⟨n, 0⟩

/-- A normal binary64 number: 53 significant bits, exponent in range. -/
def Binary64.normal (x : Binary64) : Bool :=
  decide (2 ^ 52 ≤ x.m) && decide (x.m < 2 ^ 53) && decide (-1074 ≤ x.e) && decide (x.e ≤ 971)

/-- The quotient `n / d` rounded to the nearest integer, ties to the even one. -/
def roundHalfEven (n d : Nat) : Nat :=
  let q := n / d
  let r := n % d
  if 2 * r < d then q
  else if 2 * r = d then (if q % 2 = 0 then q else q + 1)
  else q + 1

/-- The exponent `e` for which `2 ^ 52 ≤ (n / d) / 2 ^ e < 2 ^ 53`, for `n, d > 0`.
With `k = ⌊log₂ n⌋ - ⌊log₂ d⌋` the quotient lies strictly between `2 ^ (k - 1)`
and `2 ^ (k + 1)`; one comparison decides on which side of `2 ^ k` it is. -/
def binary64Exp (n d : Nat) : Int :=
  let k : Int := (ilog2 n : Int) - (ilog2 d : Int)
  let ge : Bool :=
    if 0 ≤ k then decide (d * 2 ^ k.toNat ≤ n) else decide (d ≤ n * 2 ^ (-k).toNat)
  if ge then k - 52 else k - 53

/-- The binary64 value nearest to the positive rational `n / d`: the quotient is
scaled into `[2 ^ 52, 2 ^ 53)` and the significand rounded half-to-even. -/
def binary64OfPos (n d : Nat) : Binary64 :=
  let e := binary64Exp n d
  let m :=
    if 0 ≤ e then roundHalfEven n (d * 2 ^ e.toNat)
    else roundHalfEven (n * 2 ^ (-e).toNat) d
  ⟨m, e⟩

/-- Binary64 division `x / y`.  Rounding to 53 significant bits commutes with
scaling by a power of two, so only the quotient of the significands is rounded.
A zero operand gives `0`: the model has no infinity or NaN, and `1000.0 / 0.0`
is not a value the C code can convert to `guint` (see `interval_defined`). -/
def fdiv (x y : Binary64) : Binary64 :=
  if x.m = 0 ∨ y.m = 0 then ⟨0, 0⟩
  else
    let r := binary64OfPos x.m y.m
    ⟨r.m, r.e + (x.e - y.e)⟩

/-- The integral part of a floating-point value (truncation toward zero). -/
def Binary64.trunc (x : Binary64) : Nat :=
  if 0 ≤ x.e then x.m * 2 ^ x.e.toNat else x.m / 2 ^ (-x.e).toNat

/-- The conversion `(guint) x` of a `gdouble`: the fractional part is discarded.
`guint` has 32 bits. -/
def guint_of_double (x : Binary64) : Nat := x.trunc % 2 ^ 32

/-- The conversion `(guint) gtk_range_get_value (...)`.  The value of the range
is a `gdouble`; every finite `gdouble` is a rational number, so the value is
taken in `ℚ`. -/
def guint_of_value (v : ℚ) : Nat := Int.toNat ⌊v⌋ % 2 ^ 32

/-- The divisor `bpm / 60.0` of `setup_timer`, for `bpm = (guint) value`. -/
def beats_per_second (bpm : Nat) : Binary64 :=
  fdiv (Binary64.ofNat bpm) (Binary64.ofNat 60)

/-- The quotient `1000.0 / (bpm / 60.0)` of `setup_timer`, before conversion. -/
def interval_double (bpm : Nat) : Binary64 :=
  fdiv (Binary64.ofNat 1000) (beats_per_second bpm)

/-- The two assignments at the head of `setup_timer`:
`bpm = (guint) gtk_range_get_value (...)` and
`self->interval = (guint) (1000.0 / (bpm / 60.0))`, as a function of the value
of the range. -/
def interval_ms (value : ℚ) : Nat :=
  let bpm := guint_of_value value
  guint_of_double (interval_double bpm)

/-- The conversions and the division of `interval_ms` are defined in C: the
divisor is not zero and the quotient is below `2 ^ 32`. -/
def interval_defined (value : ℚ) : Prop :=
  (beats_per_second (guint_of_value value)).m ≠ 0 ∧
  (interval_double (guint_of_value value)).trunc < 2 ^ 32

/-- The interval as the specification words it: `60000 / bpm` rounded to the
nearest integer. -/
def spec_interval_ms (bpm : Nat) : ℤ := round ((60000 : ℚ) / (bpm : ℚ))

/-! ## The window and the main loop -/

/-- The fields of `struct _BeatWindow` read or written by the handlers.
`bpm_scale` is the value of the range widget, `play_button` the icon name of the
image last set on the button (`none` for the image set at construction). -/
structure BeatWindow where
  bpm_scale : ℚ
  play_button : Option String
  playing : Bool
  beep_source : Nat
  interval : Nat
deriving DecidableEq

/-- The closure data of one timeout, `BeepData`.  There is a single window, so
the `self` pointer is left out. -/
structure BeepData where
  source : Nat
deriving DecidableEq

/-- A timeout source attached to the main loop by `g_timeout_add_full`: its id,
its period in milliseconds and the data passed to its callback `beep`. -/
structure Timeout where
  id : Nat
  interval : Nat
  data : BeepData
deriving DecidableEq

/-- The state the handlers run in.
* `win`: the window instance;
* `action_state`: the boolean state of the "play" action;
* `timeouts`: the timeout sources currently attached to the main loop;
* `issued`: every id `g_timeout_add_full` has returned so far;
* `played`: the event ids passed to `ca_context_play`, oldest first;
* `stderr`: the error codes printed by `g_printerr`, oldest first. -/
structure World where
  win : BeatWindow
  action_state : Bool
  timeouts : List Timeout
  issued : List Nat
  played : List String
  stderr : List Int
deriving DecidableEq

/-- The timeout callback `beep`.  `ca_result` is the status `ca_context_play`
returns if it is called.  The result is the new state and the `gboolean`
returned to the main loop (`true`: keep the source, `false`: remove it). -/
def beep (w : World) (data : BeepData) (ca_result : Int) : World × Bool :=
  let cont := data.source == w.win.beep_source && w.win.playing
  if cont then
    let w1 := { w with played := w.played ++ ["message"] }
    let w2 := if ca_result < 0 then { w1 with stderr := w1.stderr ++ [ca_result] } else w1
    (w2, cont)
  else
    (w, cont)

/-- The function `setup_timer`.  `new_id` is the id returned by
`g_timeout_add_full`; it is stored both in `data->source` and in
`self->beep_source`.  Sources already attached are left alone. -/
def setup_timer (w : World) (new_id : Nat) : World :=
  let interval := interval_ms w.win.bpm_scale
  let data : BeepData := { source := new_id }
  { w with
    win := { w.win with interval := interval, beep_source := new_id }
    timeouts := w.timeouts ++ [{ id := new_id, interval := interval, data := data }]
    issued := w.issued ++ [new_id] }

/-- The signal handler `on_bpm_changed`. -/
def on_bpm_changed (w : World) (new_id : Nat) : World :=
  if w.win.playing then setup_timer w new_id else w

/-- The change-state handler `play_toggled` of the "play" action. -/
def play_toggled (w : World) (new_id : Nat) : World :=
  let state := w.action_state
  let w1 := { w with win := { w.win with playing := !state } }
  let w2 := { w1 with action_state := w1.win.playing }
  let icon_name :=
    if w2.win.playing then "media-playback-stop-symbolic" else "media-playback-start-symbolic"
  let w3 := { w2 with win := { w2.win with play_button := some icon_name } }
  if w3.win.playing then setup_timer w3 new_id
  else { w3 with win := { w3.win with beep_source := 0 } }

/-- The main loop dispatching the timeout source `id`: its callback runs, and
the source is destroyed when the callback returns `FALSE`.  An id with no
attached source dispatches nothing. -/
def dispatch (w : World) (id : Nat) (ca_result : Int) : World :=
  match w.timeouts.find? (fun t => t.id == id) with
  | none => w
  | some t =>
    let r := beep w t.data ca_result
    if r.2 then r.1
    else { r.1 with timeouts := r.1.timeouts.filter (fun t => t.id != id) }

/-- The state after `beat_window_init` and `beat_window_constructed`: stopped,
`beep_source = 0`, the range at 120, the action state `false`, nothing
scheduled.  `interval` is 0 in the zero-filled instance. -/
def World.init : World :=
  { win := { bpm_scale := 120, play_button := none, playing := false,
             beep_source := 0, interval := 0 }
    action_state := false
    timeouts := []
    issued := []
    played := []
    stderr := [] }

/-- What the main loop can deliver to the window. -/
inductive Event where
  /-- the "play" action is toggled; `new_id` is what `g_timeout_add_full`
  returns if it is called -/
  | toggle (new_id : Nat)
  /-- the range moves to `value` and emits value-changed -/
  | bpm (value : ℚ) (new_id : Nat)
  /-- the timeout source `id` fires; `ca_result` is what `ca_context_play`
  returns if it is called -/
  | fire (id : Nat) (ca_result : Int)

/-- Whether an event is a toggle of the "play" action. -/
def Event.isToggle : Event → Bool
  | .toggle _ => true
  | _ => false

/-- One event handled. -/
def step (w : World) : Event → World
  | .toggle new_id => play_toggled w new_id
  | .bpm value new_id =>
    on_bpm_changed { w with win := { w.win with bpm_scale := value } } new_id
  | .fire id ca_result => dispatch w id ca_result

/-- A sequence of events handled in order. -/
def run (w : World) (evs : List Event) : World := evs.foldl step w

/-- An id `g_timeout_add_full` may return: not zero and never returned before. -/
def fresh (w : World) (id : Nat) : Prop := id ≠ 0 ∧ id ∉ w.issued

instance (w : World) (id : Nat) : Decidable (fresh w id) := by
  unfold fresh; infer_instance

/-- The assumption on the scheduler: whenever an event makes `setup_timer` run,
the id it is given is fresh. -/
def admissible (w : World) : Event → Prop
  | .toggle new_id => w.action_state = false → fresh w new_id
  | .bpm _ new_id => w.win.playing = true → fresh w new_id
  | .fire _ _ => True

/-- The states reachable from the initial one under the scheduler assumption. -/
inductive Reachable : World → Prop where
  | init : Reachable World.init
  | step {w : World} (ev : Event) : Reachable w → admissible w ev → Reachable (step w ev)

/-- A timeout is live when its callback would play and ask to be kept. -/
def live (w : World) (t : Timeout) : Bool := (beep w t.data 0).2

/-- What holds of the states reachable under the scheduler assumption.
* `sync`: the `playing` flag and the action state agree;
* `stopped`: while stopped the current source id is the sentinel 0;
* `data_id`: every attached source carries its own id in its data;
* `issued_id`, `id_ne_zero`: attached ids were issued, and are not 0;
* `nodup`: attached ids are pairwise distinct;
* `current`: while playing the current source is attached. -/
structure Inv (w : World) : Prop where
  sync : w.win.playing = w.action_state
  stopped : w.win.playing = false → w.win.beep_source = 0
  data_id : ∀ t ∈ w.timeouts, t.data.source = t.id
  issued_id : ∀ t ∈ w.timeouts, t.id ∈ w.issued
  id_ne_zero : ∀ t ∈ w.timeouts, t.id ≠ 0
  nodup : (w.timeouts.map Timeout.id).Nodup
  current : w.win.playing = true → ∃ t ∈ w.timeouts, t.id = w.win.beep_source

/-- The window with its range set to `value`. -/
def World.withValue (w : World) (value : ℚ) : World :=
  { w with win := { w.win with bpm_scale := value } }

/-- The scheduler assumption along a sequence of events handled in order. -/
def admissibleRun (w : World) : List Event → Prop
  | [] => True
  | ev :: evs => admissible w ev ∧ admissibleRun (step w ev) evs

/-- A sample history: the window is started (timeout 1), the range is moved to
90 while playing (timeout 2), the window is stopped and started again
(timeout 3); no timeout has fired yet, so all three are still attached. -/
def World.sample : World :=
  step (step (step (step World.init (.toggle 1)) (.bpm 90 2)) (.toggle 0)) (.toggle 3)

/-! ## The binary64 model is correctly rounded -/

/-- With enough fuel, `bitLenAux` is the number of binary digits of `n > 0`. -/
theorem bitLenAux_spec : ∀ (fuel n : Nat), n ≤ fuel → 0 < n →
    2 ^ (bitLenAux fuel n - 1) ≤ n ∧ n < 2 ^ bitLenAux fuel n ∧ 0 < bitLenAux fuel n := by
  intro fuel
  induction fuel with
  | zero => intro n h1 h2; omega
  | succ f ih =>
    intro n h1 h2
    have hn : n ≠ 0 := by omega
    have hb : bitLenAux (f + 1) n = bitLenAux f (n / 2) + 1 := by
      simp [bitLenAux, hn]
    rw [hb]
    by_cases h : n / 2 = 0
    · have hn1 : n = 1 := by omega
      have hz : bitLenAux f (n / 2) = 0 := by
        rw [h]
        cases f <;> simp [bitLenAux]
      rw [hz, hn1]
      simp
    · obtain ⟨a, b, c⟩ := ih (n / 2) (by omega) (by omega)
      refine ⟨?_, ?_, by omega⟩
      · have e : bitLenAux f (n / 2) + 1 - 1 = (bitLenAux f (n / 2) - 1) + 1 := by omega
        rw [e, pow_succ]
        omega
      · rw [pow_succ]
        omega

/-- The position of the leading binary digit: `2 ^ ilog2 n ≤ n < 2 ^ (ilog2 n + 1)`. -/
theorem ilog2_spec (n : Nat) (h : 0 < n) : 2 ^ ilog2 n ≤ n ∧ n < 2 ^ (ilog2 n + 1) := by
  obtain ⟨a, b, c⟩ := bitLenAux_spec n n (le_refl n) h
  unfold ilog2
  have e : bitLenAux n n - 1 + 1 = bitLenAux n n := by omega
  rw [e]
  exact ⟨a, b⟩

/-- The rounded quotient is within one half of `n / d`, lies between the floor
and the floor plus one, and is exact when `d` divides `n`. -/
theorem roundHalfEven_spec (n d : Nat) (hd : 0 < d) :
    2 * d * roundHalfEven n d ≤ 2 * n + d ∧ 2 * n ≤ 2 * d * roundHalfEven n d + d ∧
    n / d ≤ roundHalfEven n d ∧ roundHalfEven n d ≤ n / d + 1 ∧
    (n % d = 0 → roundHalfEven n d = n / d) := by
  have h1 : d * (n / d) + n % d = n := Nat.div_add_mod n d
  have h2 := Nat.mod_lt n hd
  unfold roundHalfEven
  simp only
  generalize n / d = q at *
  generalize n % d = r at *
  subst h1
  split_ifs with c1 c2 c3
  · refine ⟨?_, ?_, le_refl _, by omega, fun _ => rfl⟩ <;> nlinarith
  · refine ⟨?_, ?_, le_refl _, by omega, fun _ => rfl⟩ <;> nlinarith
  · refine ⟨?_, ?_, by omega, le_refl _, fun h => by omega⟩ <;> nlinarith
  · refine ⟨?_, ?_, by omega, le_refl _, fun h => by omega⟩ <;> nlinarith


/-- Comparison made by `binary64Exp`, read in `ℚ`. -/
theorem binary64Exp_cmp (n d : Nat) (k : Int) :
    ((if 0 ≤ k then decide (d * 2 ^ k.toNat ≤ n) else decide (d ≤ n * 2 ^ (-k).toNat)) = true)
      ↔ (d : ℚ) * (2 : ℚ) ^ k ≤ n := by
  by_cases hk : 0 ≤ k
  · obtain ⟨K, rfl⟩ := Int.eq_ofNat_of_zero_le hk
    simp only [hk, if_true, Int.toNat_ofNat, decide_eq_true_eq, zpow_natCast]
    constructor
    · intro h
      exact_mod_cast h
    · intro h
      exact_mod_cast h
  · have hk2 : 0 ≤ -k := by omega
    obtain ⟨K, hK⟩ := Int.eq_ofNat_of_zero_le hk2
    have hk3 : k = -(K : ℤ) := by omega
    subst hk3
    simp only [hk, if_false, neg_neg, Int.toNat_ofNat, decide_eq_true_eq, zpow_neg,
      zpow_natCast]
    have hpos : (0 : ℚ) < 2 ^ K := by positivity
    rw [← div_eq_mul_inv, div_le_iff₀ hpos]
    constructor
    · intro h
      exact_mod_cast h
    · intro h
      exact_mod_cast h

/-- The exponent chosen by `binary64Exp` scales the quotient into
`[2 ^ 52, 2 ^ 53)`. -/
theorem binary64Exp_spec (n d : Nat) (hn : 0 < n) (hd : 0 < d) :
    (2 : ℚ) ^ 52 * (2 : ℚ) ^ (binary64Exp n d) ≤ (n : ℚ) / d ∧
    (n : ℚ) / d < (2 : ℚ) ^ 53 * (2 : ℚ) ^ (binary64Exp n d) := by
  obtain ⟨na, nb⟩ := ilog2_spec n hn
  obtain ⟨da, db⟩ := ilog2_spec d hd
  have hdq : (0 : ℚ) < d := by exact_mod_cast hd
  have qna : (2 : ℚ) ^ ilog2 n ≤ n := by exact_mod_cast na
  have qnb : (n : ℚ) < 2 ^ (ilog2 n + 1) := by exact_mod_cast nb
  have qda : (2 : ℚ) ^ ilog2 d ≤ d := by exact_mod_cast da
  have qdb : (d : ℚ) < 2 ^ (ilog2 d + 1) := by exact_mod_cast db
  have hP : (2 : ℚ) ^ ((ilog2 n : ℤ) - (ilog2 d : ℤ)) * 2 ^ ilog2 d = 2 ^ ilog2 n := by
    rw [zpow_sub₀ (by norm_num), zpow_natCast, zpow_natCast]
    field_simp
  have hPpos : (0 : ℚ) < (2 : ℚ) ^ ((ilog2 n : ℤ) - (ilog2 d : ℤ)) := by positivity
  have hcmp := binary64Exp_cmp n d ((ilog2 n : ℤ) - (ilog2 d : ℤ))
  have he1 : (2 : ℚ) ^ ((ilog2 n : ℤ) - (ilog2 d : ℤ) - 52)
      = (2 : ℚ) ^ ((ilog2 n : ℤ) - (ilog2 d : ℤ)) / 2 ^ 52 := by
    rw [zpow_sub₀ (by norm_num)]
    norm_num
  have he2 : (2 : ℚ) ^ ((ilog2 n : ℤ) - (ilog2 d : ℤ) - 53)
      = (2 : ℚ) ^ ((ilog2 n : ℤ) - (ilog2 d : ℤ)) / 2 ^ 53 := by
    rw [zpow_sub₀ (by norm_num)]
    norm_num
  unfold binary64Exp
  simp only
  rw [pow_succ] at qnb qdb
  have hbpos : (0 : ℚ) < 2 ^ ilog2 d := by positivity
  by_cases hc : (if 0 ≤ (ilog2 n : ℤ) - (ilog2 d : ℤ)
      then decide (d * 2 ^ ((ilog2 n : ℤ) - (ilog2 d : ℤ)).toNat ≤ n)
      else decide (d ≤ n * 2 ^ (-((ilog2 n : ℤ) - (ilog2 d : ℤ))).toNat)) = true
  · have hq := hcmp.mp hc
    rw [if_pos hc, he1]
    generalize (2 : ℚ) ^ ((ilog2 n : ℤ) - (ilog2 d : ℤ)) = P at *
    constructor
    · rw [le_div_iff₀ hdq]
      have : (2 : ℚ) ^ 52 * (P / 2 ^ 52) = P := by field_simp
      rw [this]
      linarith
    · rw [div_lt_iff₀ hdq]
      have : (2 : ℚ) ^ 53 * (P / 2 ^ 52) = 2 * P := by
        field_simp; ring
      rw [this]
      nlinarith
  · have hq : (n : ℚ) < d * (2 : ℚ) ^ ((ilog2 n : ℤ) - (ilog2 d : ℤ)) := by
      by_contra hcon
      exact hc (hcmp.mpr (not_lt.mp hcon))
    rw [if_neg hc, he2]
    generalize (2 : ℚ) ^ ((ilog2 n : ℤ) - (ilog2 d : ℤ)) = P at *
    constructor
    · rw [le_div_iff₀ hdq]
      have : (2 : ℚ) ^ 52 * (P / 2 ^ 53) = P / 2 := by
        field_simp; ring
      rw [this]
      nlinarith
    · rw [div_lt_iff₀ hdq]
      have : (2 : ℚ) ^ 53 * (P / 2 ^ 53) = P := by field_simp
      rw [this]
      linarith


/-- The significand computed by `binary64OfPos` is the half-to-even rounding of
a quotient of naturals equal to `(n / d) / 2 ^ e`. -/
theorem binary64OfPos_scaled (n d : Nat) (hd : 0 < d) :
    ∃ N D : Nat, 0 < D ∧ (binary64OfPos n d).m = roundHalfEven N D ∧
      (N : ℚ) / D = (n : ℚ) / d / (2 : ℚ) ^ (binary64OfPos n d).e := by
  have hdq : (d : ℚ) ≠ 0 := by exact_mod_cast hd.ne'
  unfold binary64OfPos
  simp only
  generalize binary64Exp n d = e
  by_cases he : 0 ≤ e
  · obtain ⟨E, rfl⟩ := Int.eq_ofNat_of_zero_le he
    refine ⟨n, d * 2 ^ E, by positivity, by simp, ?_⟩
    rw [zpow_natCast]
    push_cast
    rw [div_div]
  · have he2 : 0 ≤ -e := by omega
    obtain ⟨E, hE⟩ := Int.eq_ofNat_of_zero_le he2
    have he3 : e = -(E : ℤ) := by omega
    subst he3
    refine ⟨n * 2 ^ E, d, hd, by simp [he], ?_⟩
    rw [zpow_neg, zpow_natCast]
    push_cast
    field_simp

/-- The value `binary64OfPos n d` is a correctly rounded quotient: its
significand has 53 bits (or is `2 ^ 53`, after rounding up at the top of the
binade), and it differs from `n / d` by at most half a unit in the last place. -/
theorem binary64OfPos_spec (n d : Nat) (hn : 0 < n) (hd : 0 < d) :
    2 ^ 52 ≤ (binary64OfPos n d).m ∧ (binary64OfPos n d).m ≤ 2 ^ 53 ∧
    |(binary64OfPos n d).toRat - (n : ℚ) / d| ≤ (2 : ℚ) ^ (binary64OfPos n d).e / 2 := by
  obtain ⟨N, D, hD, hm, hq⟩ := binary64OfPos_scaled n d hd
  have hexp := binary64Exp_spec n d hn hd
  have hee : (binary64OfPos n d).e = binary64Exp n d := rfl
  rw [← hee] at hexp
  unfold Binary64.toRat
  rw [hm]
  generalize (binary64OfPos n d).e = e at *
  have hpos : (0 : ℚ) < (2 : ℚ) ^ e := by positivity
  have hDq : (0 : ℚ) < D := by exact_mod_cast hD
  obtain ⟨r1, r2, r3, r4, -⟩ := roundHalfEven_spec N D hD
  have q1 : (2 : ℚ) * D * roundHalfEven N D ≤ 2 * N + D := by exact_mod_cast r1
  have q2 : (2 : ℚ) * N ≤ 2 * D * roundHalfEven N D + D := by exact_mod_cast r2
  -- the scaled quotient lies in [2 ^ 52, 2 ^ 53)
  have x1 : (2 : ℚ) ^ 52 ≤ (N : ℚ) / D := by
    rw [hq, le_div_iff₀ hpos]
    exact hexp.1
  have x2 : (N : ℚ) / D < (2 : ℚ) ^ 53 := by
    rw [hq, div_lt_iff₀ hpos]
    exact hexp.2
  have n1 : 2 ^ 52 * D ≤ N := by
    rw [le_div_iff₀ hDq] at x1
    exact_mod_cast x1
  have n2 : N < 2 ^ 53 * D := by
    rw [div_lt_iff₀ hDq] at x2
    exact_mod_cast x2
  have d1 : 2 ^ 52 ≤ N / D := (Nat.le_div_iff_mul_le hD).mpr n1
  have d2 : N / D < 2 ^ 53 := (Nat.div_lt_iff_lt_mul hD).mpr n2
  refine ⟨le_trans d1 r3, by omega, ?_⟩
  have hnd : (n : ℚ) / d = (N : ℚ) / D * (2 : ℚ) ^ e := by
    rw [hq]
    field_simp
    ring
  rw [hnd, ← sub_mul, abs_mul, abs_of_pos hpos]
  have habs : |(roundHalfEven N D : ℚ) - (N : ℚ) / D| ≤ 1 / 2 := by
    rw [abs_le]
    constructor
    · rw [le_sub_iff_add_le, ← sub_eq_neg_add, sub_le_iff_le_add, div_le_iff₀ hDq]
      nlinarith
    · rw [sub_le_iff_le_add, ← sub_le_iff_le_add', le_div_iff₀ hDq]
      nlinarith
  calc |(roundHalfEven N D : ℚ) - (N : ℚ) / D| * (2 : ℚ) ^ e
      ≤ 1 / 2 * (2 : ℚ) ^ e := mul_le_mul_of_nonneg_right habs hpos.le
    _ = (2 : ℚ) ^ e / 2 := by ring

/-- The division `fdiv` is correctly rounded: for non-zero operands the result
has a 53-bit significand (or `2 ^ 53`) and differs from the exact quotient by at
most half a unit in the last place. -/
theorem fdiv_spec (x y : Binary64) (hx : x.m ≠ 0) (hy : y.m ≠ 0) :
    2 ^ 52 ≤ (fdiv x y).m ∧ (fdiv x y).m ≤ 2 ^ 53 ∧
    |(fdiv x y).toRat - x.toRat / y.toRat| ≤ (2 : ℚ) ^ (fdiv x y).e / 2 := by
  obtain ⟨h1, h2, h3⟩ := binary64OfPos_spec x.m y.m (Nat.pos_of_ne_zero hx)
    (Nat.pos_of_ne_zero hy)
  have hf : fdiv x y = ⟨(binary64OfPos x.m y.m).m, (binary64OfPos x.m y.m).e + (x.e - y.e)⟩ := by
    unfold fdiv
    simp [hx, hy]
  rw [hf]
  refine ⟨h1, h2, ?_⟩
  unfold Binary64.toRat at h3 ⊢
  simp only
  have hs : (0 : ℚ) < (2 : ℚ) ^ (x.e - y.e) := by positivity
  have hym : (y.m : ℚ) ≠ 0 := by exact_mod_cast hy
  have e1 : ((binary64OfPos x.m y.m).m : ℚ) * (2 : ℚ) ^ ((binary64OfPos x.m y.m).e + (x.e - y.e))
      - (x.m : ℚ) * (2 : ℚ) ^ x.e / ((y.m : ℚ) * (2 : ℚ) ^ y.e)
      = (((binary64OfPos x.m y.m).m : ℚ) * (2 : ℚ) ^ (binary64OfPos x.m y.m).e
          - (x.m : ℚ) / y.m) * (2 : ℚ) ^ (x.e - y.e) := by
    rw [zpow_add₀ (by norm_num), zpow_sub₀ (by norm_num)]
    field_simp
    ring
  rw [e1, abs_mul, abs_of_pos hs, zpow_add₀ (by norm_num)]
  calc _ ≤ (2 : ℚ) ^ (binary64OfPos x.m y.m).e / 2 * (2 : ℚ) ^ (x.e - y.e) :=
        mul_le_mul_of_nonneg_right h3 hs.le
    _ = _ := by ring


/-- On a tie the rounded significand is even. -/
theorem roundHalfEven_tie (n d : Nat) (h : 2 * (n % d) = d) : roundHalfEven n d % 2 = 0 := by
  unfold roundHalfEven
  simp only
  have h1 : ¬ 2 * (n % d) < d := by omega
  rw [if_neg h1, if_pos h]
  split_ifs with c
  · exact c
  · omega

/-- The conversion to an unsigned integer discards the fractional part: it is
the floor of the value denoted. -/
theorem trunc_spec (x : Binary64) : (x.trunc : ℤ) = ⌊x.toRat⌋ := by
  unfold Binary64.trunc Binary64.toRat
  by_cases he : 0 ≤ x.e
  · obtain ⟨E, hE⟩ := Int.eq_ofNat_of_zero_le he
    rw [if_pos he, hE, Int.toNat_ofNat, zpow_natCast]
    have : ((x.m : ℚ) * 2 ^ E) = ((x.m * 2 ^ E : ℕ) : ℚ) := by push_cast; ring
    rw [this, Int.floor_natCast]
  · have he2 : 0 ≤ -x.e := by omega
    obtain ⟨E, hE⟩ := Int.eq_ofNat_of_zero_le he2
    have he3 : x.e = -(E : ℤ) := by omega
    rw [if_neg he, hE, Int.toNat_ofNat, he3, zpow_neg, zpow_natCast, ← div_eq_mul_inv]
    have h := Rat.floor_intCast_div_natCast (x.m : ℤ) (2 ^ E)
    simp only [Int.cast_natCast, Nat.cast_pow, Nat.cast_ofNat] at h
    rw [h]
    norm_cast

/-! ## The interval computation -/

/-- The range value `v ∈ [1, 240]` converts to an unsigned integer in `[1, 240]`. -/
theorem guint_of_value_range (v : ℚ) (h1 : 1 ≤ v) (h2 : v ≤ 240) :
    1 ≤ guint_of_value v ∧ guint_of_value v ≤ 240 := by
  have hf1 : (1 : ℤ) ≤ ⌊v⌋ := Int.le_floor.mpr (by exact_mod_cast h1)
  have hf2 : ⌊v⌋ ≤ (240 : ℤ) := by
    have : ((⌊v⌋ : ℤ) : ℚ) ≤ 240 := le_trans (Int.floor_le v) h2
    exact_mod_cast this
  unfold guint_of_value
  omega

/-- An integral range value converts to itself. -/
theorem guint_of_value_natCast (b : Nat) (h : b < 2 ^ 32) : guint_of_value (b : ℚ) = b := by
  unfold guint_of_value
  have : ⌊(b : ℚ)⌋ = (b : ℤ) := Int.floor_natCast b
  rw [this, Int.toNat_natCast]
  exact Nat.mod_eq_of_lt h

set_option maxRecDepth 100000 in
/-- The binary64 computation `(guint) (1000.0 / (bpm / 60.0))` evaluated at every
`bpm` from 1 to 240: both quotients are normal numbers, the divisor is not zero,
the result is below `2 ^ 32` and within `[250, 60000]`, and it is `⌊60000 / bpm⌋`
except at `bpm = 125`, where the rounding of `125 / 60.0` upwards leaves the
second quotient just below 480. -/
theorem interval_table : ∀ b : Nat, b < 241 → 1 ≤ b →
    (beats_per_second b).normal = true ∧ (interval_double b).normal = true ∧
    (beats_per_second b).m ≠ 0 ∧ (interval_double b).trunc < 2 ^ 32 ∧
    250 ≤ guint_of_double (interval_double b) ∧ guint_of_double (interval_double b) ≤ 60000 ∧
    guint_of_double (interval_double b) = (if b = 125 then 479 else 60000 / b) := by
  decide

/-- The interval stored by `setup_timer` is `interval_ms` of the range value. -/
theorem setup_timer_interval (w : World) (new_id : Nat) :
    (setup_timer w new_id).win.interval = interval_ms w.win.bpm_scale := rfl

/-- The interval computed from an integral range value in `[1, 240]`. -/
theorem interval_ms_natCast (b : Nat) (h1 : 1 ≤ b) (h2 : b ≤ 240) :
    interval_ms (b : ℚ) = (if b = 125 then 479 else 60000 / b) := by
  unfold interval_ms
  rw [guint_of_value_natCast b (by omega)]
  exact (interval_table b (by omega) h1).2.2.2.2.2.2

/-- The one tempo in `[1, 240]` at which the binary64 computation is not
`⌊60000 / bpm⌋`: `125 / 60.0` rounds up to `0x4000AAAAAAAAAAAB`, and
`1000.0 / (125 / 60.0)` to `0x407DFFFFFFFFFFFF`, just below 480, so the
conversion gives 479. -/
theorem interval_at_125 :
    beats_per_second 125 = Binary64.mk 0x10AAAAAAAAAAAB (-51) ∧
    interval_double 125 = Binary64.mk 0x1DFFFFFFFFFFFF (-44) ∧
    interval_ms ((125 : Nat) : ℚ) = 479 := by
  refine ⟨by decide, by decide, ?_⟩
  rw [interval_ms_natCast 125 (by decide) (by decide)]
  rfl

/-- C1, as amended: for every integer bpm with 1 ≤ bpm ≤ 240 other than 125, the
interval `setup_timer` computes and stores is 60000 / bpm rounded down (the
fractional part is discarded, not rounded to nearest). -/
theorem setup_timer_interval_floor (w : World) (new_id bpm : Nat)
    (h1 : 1 ≤ bpm) (h2 : bpm ≤ 240) (h3 : bpm ≠ 125) :
    (setup_timer (w.withValue (bpm : ℚ)) new_id).win.interval = 60000 / bpm ∧
    ((setup_timer (w.withValue (bpm : ℚ)) new_id).win.interval : ℤ)
      = ⌊(60000 : ℚ) / (bpm : ℚ)⌋ := by
  have h : (setup_timer (w.withValue (bpm : ℚ)) new_id).win.interval = 60000 / bpm := by
    rw [setup_timer_interval]
    show interval_ms (bpm : ℚ) = 60000 / bpm
    rw [interval_ms_natCast bpm h1 h2, if_neg h3]
  refine ⟨h, ?_⟩
  rw [h]
  have := Rat.floor_intCast_div_natCast (60000 : ℤ) bpm
  simp only [Int.cast_ofNat] at this
  rw [this]
  norm_cast

/-- C1 at bpm = 120: the stored interval is 60000 / 120 = 500. -/
theorem setup_timer_interval_floor_witness :
    (1 ≤ 120 ∧ 120 ≤ 240 ∧ 120 ≠ 125) ∧
    ((setup_timer (World.init.withValue ((120 : Nat) : ℚ)) 7).win.interval = 60000 / 120 ∧
    ((setup_timer (World.init.withValue ((120 : Nat) : ℚ)) 7).win.interval : ℤ)
      = ⌊(60000 : ℚ) / ((120 : Nat) : ℚ)⌋) :=
  ⟨by decide, setup_timer_interval_floor World.init 7 120 (by decide) (by decide) (by decide)⟩

/-- C1 as stated fails at bpm = 9: `setup_timer` stores 6666, while 60000 / 9 =
6666.67 rounded to the nearest integer is 6667. -/
theorem setup_timer_interval_not_rounded :
    (setup_timer (World.init.withValue ((9 : Nat) : ℚ)) 1).win.interval = 6666 ∧
    spec_interval_ms 9 = 6667 ∧
    ((setup_timer (World.init.withValue ((9 : Nat) : ℚ)) 1).win.interval : ℤ)
      ≠ spec_interval_ms 9 := by
  have h1 : (setup_timer (World.init.withValue ((9 : Nat) : ℚ)) 1).win.interval = 6666 := by
    rw [setup_timer_interval]
    show interval_ms ((9 : Nat) : ℚ) = 6666
    rw [interval_ms_natCast 9 (by decide) (by decide)]
    decide
  have h2 : spec_interval_ms 9 = 6667 := by
    unfold spec_interval_ms
    rw [round_eq]
    norm_num [Int.floor_eq_iff]
  refine ⟨h1, h2, ?_⟩
  rw [h1, h2]
  decide

/-- C9: at the documented tempo values the interval stored by `setup_timer` is
exact: 120 gives 500 ms, 60 gives 1000 ms, 240 gives 250 ms, 1 gives 60000 ms. -/
theorem setup_timer_interval_documented (w : World) (new_id : Nat) :
    (setup_timer (w.withValue 120) new_id).win.interval = 500 ∧
    (setup_timer (w.withValue 60) new_id).win.interval = 1000 ∧
    (setup_timer (w.withValue 240) new_id).win.interval = 250 ∧
    (setup_timer (w.withValue 1) new_id).win.interval = 60000 := by
  have key : ∀ b : Nat, 1 ≤ b → b ≤ 240 →
      (setup_timer (w.withValue (b : ℚ)) new_id).win.interval
        = (if b = 125 then 479 else 60000 / b) := fun b h1 h2 => by
    rw [setup_timer_interval]
    exact interval_ms_natCast b h1 h2
  have a := key 120 (by decide) (by decide)
  have b := key 60 (by decide) (by decide)
  have c := key 240 (by decide) (by decide)
  have d := key 1 (by decide) (by decide)
  simp only [Nat.cast_ofNat, Nat.cast_one] at a b c d
  exact ⟨a, b, c, d⟩

/-- C10: for every range value v with 1 ≤ v ≤ 240, fractional or not, the
interval stored by `setup_timer` lies in [250, 60000]; the divisor `bpm / 60.0`
is not zero and the quotient is below 2 ^ 32, so the conversion does not wrap;
the period of the timeout that is scheduled is the stored interval, and is not
zero. -/
theorem setup_timer_interval_bounds (w : World) (new_id : Nat) (v : ℚ)
    (h1 : 1 ≤ v) (h2 : v ≤ 240) :
    250 ≤ (setup_timer (w.withValue v) new_id).win.interval ∧
    (setup_timer (w.withValue v) new_id).win.interval ≤ 60000 ∧
    interval_defined v ∧
    (setup_timer (w.withValue v) new_id).timeouts
      = w.timeouts ++ [Timeout.mk new_id (setup_timer (w.withValue v) new_id).win.interval (BeepData.mk new_id)] ∧
    (setup_timer (w.withValue v) new_id).win.interval ≠ 0 := by
  obtain ⟨hb1, hb2⟩ := guint_of_value_range v h1 h2
  obtain ⟨-, -, hz, hlt, hlo, hhi, -⟩ := interval_table (guint_of_value v) (by omega) hb1
  have hi : (setup_timer (w.withValue v) new_id).win.interval
      = guint_of_double (interval_double (guint_of_value v)) := rfl
  rw [hi]
  exact ⟨hlo, hhi, ⟨hz, hlt⟩, rfl, by omega⟩

/-- C10 at the fractional value 239.5, which converts to bpm 239 and gives an
interval of 251 ms. -/
theorem setup_timer_interval_bounds_witness :
    ((1 : ℚ) ≤ 479 / 2 ∧ (479 / 2 : ℚ) ≤ 240) ∧
    250 ≤ (setup_timer (World.init.withValue (479 / 2)) 1).win.interval ∧
    (setup_timer (World.init.withValue (479 / 2)) 1).win.interval ≤ 60000 ∧
    interval_defined (479 / 2) ∧
    (setup_timer (World.init.withValue (479 / 2)) 1).timeouts
      = World.init.timeouts ++ [Timeout.mk 1 (setup_timer (World.init.withValue (479 / 2)) 1).win.interval (BeepData.mk 1)] ∧
    (setup_timer (World.init.withValue (479 / 2)) 1).win.interval ≠ 0 :=
  ⟨by norm_num, setup_timer_interval_bounds World.init 1 (479 / 2) (by norm_num) (by norm_num)⟩

/-! ## The tick handler -/

/-- The value `beep` returns is the conjunction it computes first. -/
theorem beep_snd (w : World) (data : BeepData) (r : Int) :
    (beep w data r).2 = (data.source == w.win.beep_source && w.win.playing) := by
  unfold beep
  cases hc : (data.source == w.win.beep_source && w.win.playing) <;> simp [hc]

/-- The value `beep` returns is `true` exactly when the token matches and the
window is playing. -/
theorem beep_snd_eq_true (w : World) (data : BeepData) (r : Int) :
    (beep w data r).2 = true ↔ (data.source = w.win.beep_source ∧ w.win.playing = true) := by
  rw [beep_snd]
  simp

/-- When `beep` returns `false` it has done nothing. -/
theorem beep_of_snd_false (w : World) (data : BeepData) (r : Int)
    (h : (beep w data r).2 = false) : beep w data r = (w, false) := by
  rw [beep_snd] at h
  unfold beep
  simp [h]

/-- When `beep` returns `true` it has requested one cue, and logged the status
if it is negative; nothing else changes. -/
theorem beep_of_snd_true (w : World) (data : BeepData) (r : Int)
    (h : (beep w data r).2 = true) :
    (beep w data r).1
      = { w with played := w.played ++ ["message"],
                 stderr := if r < 0 then w.stderr ++ [r] else w.stderr } := by
  rw [beep_snd] at h
  unfold beep
  simp only [h, if_true]
  split <;> rfl

/-- While the window is stopped `beep` does nothing and returns `false`. -/
theorem beep_stopped (w : World) (data : BeepData) (r : Int) (h : w.win.playing = false) :
    beep w data r = (w, false) := by
  apply beep_of_snd_false
  rw [beep_snd, h]
  simp

/-- The handler `beep` never writes to the window, the action, the attached
sources or the issued ids. -/
theorem beep_frame (w : World) (data : BeepData) (r : Int) :
    (beep w data r).1.win = w.win ∧ (beep w data r).1.action_state = w.action_state ∧
    (beep w data r).1.timeouts = w.timeouts ∧ (beep w data r).1.issued = w.issued := by
  cases h : (beep w data r).2
  · rw [beep_of_snd_false w data r h]
    exact ⟨rfl, rfl, rfl, rfl⟩
  · rw [beep_of_snd_true w data r h]
    exact ⟨rfl, rfl, rfl, rfl⟩

/-- C5: the tick handler requests exactly one click and returns "continue" if
and only if the firing token equals the stored current token and the transport
is playing; in every other case it requests no click, changes nothing, and
returns "stop". -/
theorem beep_iff (w : World) (data : BeepData) (r : Int) :
    (((beep w data r).2 = true ∧ (beep w data r).1.played = w.played ++ ["message"])
      ↔ (data.source = w.win.beep_source ∧ w.win.playing = true)) ∧
    (if data.source = w.win.beep_source ∧ w.win.playing = true then
      (beep w data r).2 = true ∧ (beep w data r).1.played = w.played ++ ["message"]
    else
      (beep w data r).2 = false ∧ (beep w data r).1.played = w.played ∧
        (beep w data r).1 = w) := by
  have hiff := beep_snd_eq_true w data r
  by_cases hc : data.source = w.win.beep_source ∧ w.win.playing = true
  · have ht := hiff.mpr hc
    have hp : (beep w data r).1.played = w.played ++ ["message"] := by
      rw [beep_of_snd_true w data r ht]
    rw [if_pos hc]
    exact ⟨⟨fun _ => hc, fun _ => ⟨ht, hp⟩⟩, ht, hp⟩
  · have hf : (beep w data r).2 = false := by
      cases h : (beep w data r).2
      · rfl
      · exact absurd (hiff.mp h) hc
    have he := beep_of_snd_false w data r hf
    rw [if_neg hc]
    refine ⟨⟨fun h => absurd (hiff.mp h.1) hc, fun h => absurd h hc⟩, hf, ?_, ?_⟩
    · rw [he]
    · rw [he]

/-- What `dispatch` does once the fired source is known: the callback runs on
the data of that source, and the source goes when the callback returns `false`. -/
theorem dispatch_of_find (w : World) (id : Nat) (r : Int) (t : Timeout)
    (h : w.timeouts.find? (fun t => t.id == id) = some t) :
    dispatch w id r =
      if (beep w t.data r).2 = true then (beep w t.data r).1
      else { w with timeouts := w.timeouts.filter (fun t => t.id != id) } := by
  unfold dispatch
  rw [h]
  cases hb : (beep w t.data r).2
  · simp [hb, beep_of_snd_false w t.data r hb]
  · simp [hb]

/-- An id with no attached source dispatches nothing. -/
theorem dispatch_of_find_none (w : World) (id : Nat) (r : Int)
    (h : w.timeouts.find? (fun t => t.id == id) = none) : dispatch w id r = w := by
  unfold dispatch
  rw [h]

/-- Dispatching a timeout never writes to the window, the action or the issued
ids, and the attached sources are the old ones, possibly without the fired id. -/
theorem dispatch_frame (w : World) (id : Nat) (r : Int) :
    (dispatch w id r).win = w.win ∧ (dispatch w id r).action_state = w.action_state ∧
    (dispatch w id r).issued = w.issued ∧
    ((dispatch w id r).timeouts = w.timeouts ∨
      (dispatch w id r).timeouts = w.timeouts.filter (fun t => t.id != id)) := by
  cases h : w.timeouts.find? (fun t => t.id == id) with
  | none =>
    rw [dispatch_of_find_none w id r h]
    exact ⟨rfl, rfl, rfl, Or.inl rfl⟩
  | some t =>
    rw [dispatch_of_find w id r t h]
    obtain ⟨h1, h2, h3, h4⟩ := beep_frame w t.data r
    cases hb : (beep w t.data r).2
    · simp
    · simp [h1, h2, h3, h4]

/-- C7: a failing sound cue does not halt the sequence.  For every state, token
and pair of statuses `e1`, `e2` of `ca_context_play`, the tick handler returns
the same value and leaves the same state apart from the error log; the log
gains the status exactly when the cue was requested and the status is negative;
and the main loop keeps the same sources attached in both cases. -/
theorem beep_status_irrelevant (w : World) (data : BeepData) (id : Nat) (e1 e2 : Int) :
    (beep w data e1).2 = (beep w data e2).2 ∧
    (beep w data e1).1.win = (beep w data e2).1.win ∧
    (beep w data e1).1.action_state = (beep w data e2).1.action_state ∧
    (beep w data e1).1.timeouts = (beep w data e2).1.timeouts ∧
    (beep w data e1).1.issued = (beep w data e2).1.issued ∧
    (beep w data e1).1.played = (beep w data e2).1.played ∧
    (beep w data e1).1.stderr
      = (if (beep w data e1).2 = true ∧ e1 < 0 then w.stderr ++ [e1] else w.stderr) ∧
    (dispatch w id e1).win = (dispatch w id e2).win ∧
    (dispatch w id e1).timeouts = (dispatch w id e2).timeouts ∧
    (dispatch w id e1).played = (dispatch w id e2).played := by
  have hs : ∀ (d : BeepData) (a b : Int), (beep w d a).2 = (beep w d b).2 := fun d a b => by
    rw [beep_snd, beep_snd]
  have hp : ∀ (d : BeepData) (a b : Int), (beep w d a).1.played = (beep w d b).1.played := by
    intro d a b
    cases h : (beep w d a).2
    · rw [beep_of_snd_false w d a h, beep_of_snd_false w d b ((hs d b a).trans h)]
    · rw [beep_of_snd_true w d a h, beep_of_snd_true w d b ((hs d b a).trans h)]
  obtain ⟨a1, a2, a3, a4⟩ := beep_frame w data e1
  obtain ⟨b1, b2, b3, b4⟩ := beep_frame w data e2
  refine ⟨hs data e1 e2, a1.trans b1.symm, a2.trans b2.symm, a3.trans b3.symm,
    a4.trans b4.symm, hp data e1 e2, ?_, ?_⟩
  · cases h : (beep w data e1).2
    · rw [beep_of_snd_false w data e1 h]
      simp
    · rw [beep_of_snd_true w data e1 h]
      simp
  · cases hf : w.timeouts.find? (fun t => t.id == id) with
    | none =>
      rw [dispatch_of_find_none w id e1 hf, dispatch_of_find_none w id e2 hf]
      exact ⟨rfl, rfl, rfl⟩
    | some t =>
      rw [dispatch_of_find w id e1 t hf, dispatch_of_find w id e2 t hf]
      obtain ⟨c1, -, c3, -⟩ := beep_frame w t.data e1
      obtain ⟨d1, -, d3, -⟩ := beep_frame w t.data e2
      cases h : (beep w t.data e1).2
      · have h2 := (hs t.data e2 e1).trans h
        simp [h2]
      · have h2 := (hs t.data e2 e1).trans h
        simp [h2, c1, d1, c3, d3, hp t.data e1 e2]

/-! ## The handlers -/

/-- A toggle while the action state is `false` starts: the flag and the action
state become `true`, the stop icon is shown and `setup_timer` runs. -/
theorem play_toggled_start (w : World) (new_id : Nat) (h : w.action_state = false) :
    play_toggled w new_id
      = setup_timer { w with
          win := { w.win with playing := true,
                              play_button := some "media-playback-stop-symbolic" },
          action_state := true } new_id := by
  simp [play_toggled, h]

/-- A toggle while the action state is `true` stops: the flag and the action
state become `false`, the start icon is shown and the current token is cleared;
nothing else changes. -/
theorem play_toggled_stop (w : World) (new_id : Nat) (h : w.action_state = true) :
    play_toggled w new_id
      = { w with
          win := { w.win with playing := false,
                              play_button := some "media-playback-start-symbolic",
                              beep_source := 0 },
          action_state := false } := by
  simp [play_toggled, h]

/-- C6: `play_toggled` sets the `playing` flag to the negation of the action
state and stores that value back as the action state; when the new state is
playing it schedules one new timeout, whose id becomes the current token and
whose interval is computed from the current range value; when the new state is
stopped it sets the current token to 0 and schedules nothing. -/
theorem play_toggled_spec (w : World) (new_id : Nat) :
    (play_toggled w new_id).win.playing = (!w.action_state) ∧
    (play_toggled w new_id).action_state = (!w.action_state) ∧
    (if (!w.action_state) = true then
      (play_toggled w new_id).timeouts
        = w.timeouts ++ [Timeout.mk new_id (interval_ms w.win.bpm_scale) (BeepData.mk new_id)] ∧
      (play_toggled w new_id).win.beep_source = new_id ∧
      (play_toggled w new_id).win.interval = interval_ms w.win.bpm_scale ∧
      (play_toggled w new_id).issued = w.issued ++ [new_id]
    else
      (play_toggled w new_id).timeouts = w.timeouts ∧
      (play_toggled w new_id).win.beep_source = 0 ∧
      (play_toggled w new_id).win.interval = w.win.interval ∧
      (play_toggled w new_id).issued = w.issued) := by
  cases h : w.action_state <;> simp [play_toggled, setup_timer, h]

/-- While stopped, `on_bpm_changed` does nothing at all. -/
theorem on_bpm_changed_stopped (w : World) (new_id : Nat) (h : w.win.playing = false) :
    on_bpm_changed w new_id = w := by
  simp [on_bpm_changed, h]

/-- C8: changing the BPM while stopped has no effect on the timer state: the
handler returns the state it was given, so the event only moves the range; no
timeout is scheduled, no click is requested, and the playing flag, the current
token and the stored interval are unchanged. -/
theorem bpm_change_while_stopped (w : World) (value : ℚ) (new_id : Nat)
    (h : w.win.playing = false) :
    on_bpm_changed w new_id = w ∧
    step w (.bpm value new_id) = w.withValue value ∧
    (step w (.bpm value new_id)).timeouts = w.timeouts ∧
    (step w (.bpm value new_id)).issued = w.issued ∧
    (step w (.bpm value new_id)).played = w.played ∧
    (step w (.bpm value new_id)).win.playing = w.win.playing ∧
    (step w (.bpm value new_id)).win.beep_source = w.win.beep_source ∧
    (step w (.bpm value new_id)).win.interval = w.win.interval := by
  have hs : step w (.bpm value new_id) = w.withValue value :=
    on_bpm_changed_stopped (w.withValue value) new_id h
  rw [hs]
  exact ⟨on_bpm_changed_stopped w new_id h, rfl, rfl, rfl, rfl, rfl, rfl, rfl⟩

/-- C8 in the initial state, the range moved from 120 to 90. -/
theorem bpm_change_while_stopped_witness :
    World.init.win.playing = false ∧
    (on_bpm_changed World.init 5 = World.init ∧
    step World.init (.bpm 90 5) = World.init.withValue 90 ∧
    (step World.init (.bpm 90 5)).timeouts = World.init.timeouts ∧
    (step World.init (.bpm 90 5)).issued = World.init.issued ∧
    (step World.init (.bpm 90 5)).played = World.init.played ∧
    (step World.init (.bpm 90 5)).win.playing = World.init.win.playing ∧
    (step World.init (.bpm 90 5)).win.beep_source = World.init.win.beep_source ∧
    (step World.init (.bpm 90 5)).win.interval = World.init.win.interval) :=
  ⟨rfl, bpm_change_while_stopped World.init 90 5 rfl⟩

/-! ## The invariant of the reachable states -/

/-- The initial state satisfies the invariant. -/
theorem inv_init : Inv World.init where
  sync := rfl
  stopped := fun _ => rfl
  data_id := fun t ht => by simp [World.init] at ht
  issued_id := fun t ht => by simp [World.init] at ht
  id_ne_zero := fun t ht => by simp [World.init] at ht
  nodup := by simp [World.init]
  current := fun h => by simp [World.init] at h

/-- Running `setup_timer` with a fresh id in a state that satisfies the
invariant apart from the clauses on the current token, with the flag and the
action state both playing, gives a state that satisfies the invariant. -/
theorem inv_setup_timer (w : World) (new_id : Nat)
    (hplay : w.win.playing = true) (hact : w.action_state = true)
    (hdata : ∀ t ∈ w.timeouts, t.data.source = t.id)
    (hiss : ∀ t ∈ w.timeouts, t.id ∈ w.issued)
    (hnz : ∀ t ∈ w.timeouts, t.id ≠ 0)
    (hnd : (w.timeouts.map Timeout.id).Nodup)
    (hfresh : fresh w new_id) : Inv (setup_timer w new_id) where
  sync := by simp [setup_timer, hplay, hact]
  stopped := fun h => by simp [setup_timer, hplay] at h
  data_id := fun t ht => by
    simp only [setup_timer, List.mem_append, List.mem_singleton] at ht
    rcases ht with ht | rfl
    · exact hdata t ht
    · rfl
  issued_id := fun t ht => by
    simp only [setup_timer, List.mem_append, List.mem_singleton] at ht ⊢
    rcases ht with ht | rfl
    · exact Or.inl (hiss t ht)
    · exact Or.inr rfl
  id_ne_zero := fun t ht => by
    simp only [setup_timer, List.mem_append, List.mem_singleton] at ht
    rcases ht with ht | rfl
    · exact hnz t ht
    · exact hfresh.1
  nodup := by
    simp only [setup_timer, List.map_append, List.map_cons, List.map_nil]
    rw [List.nodup_append]
    refine ⟨hnd, List.nodup_singleton _, ?_⟩
    intro a ha hb
    simp only [List.mem_singleton] at hb
    subst hb
    obtain ⟨t, ht, rfl⟩ := List.mem_map.mp ha
    exact hfresh.2 (hiss t ht)
  current := fun _ => by
    refine ⟨Timeout.mk new_id (interval_ms w.win.bpm_scale) (BeepData.mk new_id), ?_, rfl⟩
    simp [setup_timer]

/-- The invariant does not mention the range value. -/
theorem inv_withValue (w : World) (value : ℚ) (h : Inv w) : Inv (w.withValue value) where
  sync := h.sync
  stopped := h.stopped
  data_id := h.data_id
  issued_id := h.issued_id
  id_ne_zero := h.id_ne_zero
  nodup := h.nodup
  current := h.current

/-- Every admissible event preserves the invariant. -/
theorem inv_step (w : World) (ev : Event) (h : Inv w) (ha : admissible w ev) :
    Inv (step w ev) := by
  cases ev with
  | toggle new_id =>
    show Inv (play_toggled w new_id)
    cases hact : w.action_state with
    | false =>
      have hf : fresh w new_id := ha hact
      rw [play_toggled_start w new_id hact]
      exact inv_setup_timer _ new_id rfl rfl h.data_id h.issued_id h.id_ne_zero h.nodup hf
    | true =>
      rw [play_toggled_stop w new_id hact]
      exact {
        sync := rfl
        stopped := fun _ => rfl
        data_id := h.data_id
        issued_id := h.issued_id
        id_ne_zero := h.id_ne_zero
        nodup := h.nodup
        current := fun hp => by simp at hp }
  | bpm value new_id =>
    show Inv (on_bpm_changed (w.withValue value) new_id)
    have hv := inv_withValue w value h
    cases hp : w.win.playing with
    | false =>
      have hp2 : (w.withValue value).win.playing = false := hp
      rw [on_bpm_changed_stopped _ _ hp2]
      exact hv
    | true =>
      have hf : fresh (w.withValue value) new_id := ha hp
      have he : on_bpm_changed (w.withValue value) new_id
          = setup_timer (w.withValue value) new_id := by
        have : (w.withValue value).win.playing = true := hp
        simp [on_bpm_changed, this]
      rw [he]
      exact inv_setup_timer _ new_id hp (h.sync.symm.trans hp) hv.data_id hv.issued_id
        hv.id_ne_zero hv.nodup hf
  | fire id r =>
    show Inv (dispatch w id r)
    obtain ⟨hw, hact, hiss, hts⟩ := dispatch_frame w id r
    have hsub : ∀ t ∈ (dispatch w id r).timeouts, t ∈ w.timeouts := by
      intro t ht
      rcases hts with e | e
      · rw [e] at ht
        exact ht
      · rw [e] at ht
        exact (List.mem_filter.mp ht).1
    refine {
      sync := by rw [hw, hact]; exact h.sync
      stopped := by rw [hw]; exact h.stopped
      data_id := fun t ht => h.data_id t (hsub t ht)
      issued_id := fun t ht => by rw [hiss]; exact h.issued_id t (hsub t ht)
      id_ne_zero := fun t ht => h.id_ne_zero t (hsub t ht)
      nodup := ?_
      current := ?_ }
    · rcases hts with e | e
      · rw [e]
        exact h.nodup
      · rw [e]
        exact (List.filter_sublist _).map Timeout.id |>.nodup h.nodup
    · rw [hw]
      intro hp
      obtain ⟨c, hc, hcid⟩ := h.current hp
      cases hf : w.timeouts.find? (fun t => t.id == id) with
      | none =>
        rw [dispatch_of_find_none w id r hf]
        exact ⟨c, hc, hcid⟩
      | some t =>
        rw [dispatch_of_find w id r t hf]
        cases hb : (beep w t.data r).2
        · have htid : t.id = id := by
            have := List.find?_some hf
            simpa using this
          have htm : t ∈ w.timeouts := List.mem_of_find?_eq_some hf
          have hne : ¬ (t.data.source = w.win.beep_source ∧ w.win.playing = true) := by
            intro hh
            have := (beep_snd_eq_true w t.data r).mpr hh
            rw [hb] at this
            exact Bool.noConfusion this
          have hcne : c.id ≠ id := by
            intro hci
            apply hne
            refine ⟨?_, hp⟩
            rw [h.data_id t htm, htid, ← hci, hcid]
          refine ⟨c, ?_, hcid⟩
          simp only [Bool.false_eq_true, if_false]
          exact List.mem_filter.mpr ⟨hc, by simpa using hcne⟩
        · refine ⟨c, ?_, hcid⟩
          simp only [if_true]
          rw [(beep_frame w t.data r).2.2.1]
          exact hc

/-- Every reachable state satisfies the invariant. -/
theorem inv_of_reachable (w : World) (h : Reachable w) : Inv w := by
  induction h with
  | init => exact inv_init
  | step ev _ ha ih => exact inv_step _ ev ih ha

/-! ## Stopping -/

/-- Dispatching a source whose callback returns `false` requests no click and
detaches every source with that id. -/
theorem dispatch_not_live (w : World) (t : Timeout) (r : Int)
    (ht : t ∈ w.timeouts) (hd : ∀ u ∈ w.timeouts, u.data.source = u.id)
    (hl : live w t = false) :
    (dispatch w t.id r).played = w.played ∧ (dispatch w t.id r).win = w.win ∧
    (dispatch w t.id r).timeouts = w.timeouts.filter (fun u => u.id != t.id) ∧
    (∀ u ∈ (dispatch w t.id r).timeouts, u.id ≠ t.id) := by
  cases hf : w.timeouts.find? (fun u => u.id == t.id) with
  | none =>
    have := List.find?_eq_none.mp hf t ht
    simp at this
  | some u =>
    have hum : u ∈ w.timeouts := List.mem_of_find?_eq_some hf
    have huid : u.id = t.id := by
      have := List.find?_some hf
      simpa using this
    have hdata : u.data = t.data := by
      have h1 := hd u hum
      have h2 := hd t ht
      cases hu : u.data
      cases htd : t.data
      rw [hu] at h1
      rw [htd] at h2
      simp only at h1 h2
      rw [h1, h2, huid]
    have hb : (beep w u.data r).2 = false := by
      rw [hdata, beep_snd]
      have : (beep w t.data 0).2 = false := hl
      rw [beep_snd] at this
      exact this
    rw [dispatch_of_find w t.id r u hf]
    simp only [hb, Bool.false_eq_true, if_false]
    refine ⟨trivial, trivial, trivial, ?_⟩
    intro v hv
    have := (List.mem_filter.mp hv).2
    simpa using this

/-- While the window is stopped with the token cleared, an event other than a
toggle leaves it stopped with the token cleared, and requests no click. -/
theorem step_stopped (w : World) (ev : Event) (hp : w.win.playing = false)
    (hb : w.win.beep_source = 0) (ht : ev.isToggle = false) :
    (step w ev).win.playing = false ∧ (step w ev).win.beep_source = 0 ∧
    (step w ev).played = w.played := by
  cases ev with
  | toggle new_id => simp [Event.isToggle] at ht
  | bpm value new_id =>
    have hs : step w (.bpm value new_id) = w.withValue value :=
      on_bpm_changed_stopped (w.withValue value) new_id hp
    rw [hs]
    exact ⟨hp, hb, rfl⟩
  | fire id r =>
    show (dispatch w id r).win.playing = false ∧ (dispatch w id r).win.beep_source = 0 ∧
      (dispatch w id r).played = w.played
    rw [(dispatch_frame w id r).1]
    refine ⟨hp, hb, ?_⟩
    cases hf : w.timeouts.find? (fun t => t.id == id) with
    | none => rw [dispatch_of_find_none w id r hf]
    | some t =>
      rw [dispatch_of_find w id r t hf, beep_stopped w t.data r hp]
      simp

/-- A run of events without a toggle, from a stopped window with the token
cleared, ends stopped with the token cleared and requests no click. -/
theorem run_stopped (evs : List Event) (w : World) (hp : w.win.playing = false)
    (hb : w.win.beep_source = 0) (ht : ∀ ev ∈ evs, ev.isToggle = false) :
    (run w evs).win.playing = false ∧ (run w evs).win.beep_source = 0 ∧
    (run w evs).played = w.played := by
  induction evs generalizing w with
  | nil => exact ⟨hp, hb, rfl⟩
  | cons ev evs ih =>
    obtain ⟨h1, h2, h3⟩ := step_stopped w ev hp hb (ht ev (List.mem_cons_self _ _))
    obtain ⟨k1, k2, k3⟩ := ih (step w ev) h1 h2 (fun e he => ht e (List.mem_cons_of_mem _ he))
    exact ⟨k1, k2, k3.trans h3⟩

/-- C2: after the transport is toggled from playing to stopped, no further click
occurs.  In the state left by the toggle and in every state reached from it by
BPM changes and timer firings, the window is stopped, the stored current token
is 0, no click has been requested since the toggle, and the tick handler run
for any token requests no click, changes nothing and returns "stop". -/
theorem no_click_after_stop (w : World) (new_id : Nat) (evs : List Event)
    (hr : Reachable w) (hp : w.win.playing = true)
    (hev : ∀ ev ∈ evs, ev.isToggle = false) :
    (play_toggled w new_id).win.playing = false ∧
    (run (play_toggled w new_id) evs).win.playing = false ∧
    (run (play_toggled w new_id) evs).win.beep_source = 0 ∧
    (run (play_toggled w new_id) evs).played = w.played ∧
    ∀ (data : BeepData) (r : Int),
      beep (run (play_toggled w new_id) evs) data r
        = (run (play_toggled w new_id) evs, false) := by
  have hact : w.action_state = true := (inv_of_reachable w hr).sync.symm.trans hp
  have t1 : (play_toggled w new_id).win.playing = false := by
    rw [play_toggled_stop w new_id hact]
  have t3 : (play_toggled w new_id).win.beep_source = 0 := by
    rw [play_toggled_stop w new_id hact]
  have hpl : (play_toggled w new_id).played = w.played := by
    rw [play_toggled_stop w new_id hact]
  obtain ⟨k1, k2, k3⟩ := run_stopped evs (play_toggled w new_id) t1 t3 hev
  exact ⟨t1, k1, k2, k3.trans hpl, fun data r => beep_stopped _ data r k1⟩

/-- C2 on a concrete run: the window is started (timeout 1), then stopped; the
old timeout fires, the range moves to 90, and the timeout id is fired again. -/
theorem no_click_after_stop_witness :
    (Reachable (step World.init (.toggle 1)) ∧
      (step World.init (.toggle 1)).win.playing = true ∧
      ∀ ev ∈ [Event.fire 1 0, Event.bpm 90 2, Event.fire 1 (-5)], ev.isToggle = false) ∧
    ((play_toggled (step World.init (.toggle 1)) 0).win.playing = false ∧
    (run (play_toggled (step World.init (.toggle 1)) 0)
      [Event.fire 1 0, Event.bpm 90 2, Event.fire 1 (-5)]).win.playing = false ∧
    (run (play_toggled (step World.init (.toggle 1)) 0)
      [Event.fire 1 0, Event.bpm 90 2, Event.fire 1 (-5)]).win.beep_source = 0 ∧
    (run (play_toggled (step World.init (.toggle 1)) 0)
      [Event.fire 1 0, Event.bpm 90 2, Event.fire 1 (-5)]).played
        = (step World.init (.toggle 1)).played ∧
    ∀ (data : BeepData) (r : Int),
      beep (run (play_toggled (step World.init (.toggle 1)) 0)
          [Event.fire 1 0, Event.bpm 90 2, Event.fire 1 (-5)]) data r
        = (run (play_toggled (step World.init (.toggle 1)) 0)
          [Event.fire 1 0, Event.bpm 90 2, Event.fire 1 (-5)], false)) :=
  have hr : Reachable (step World.init (.toggle 1)) :=
    Reachable.step (.toggle 1) Reachable.init (fun _ => ⟨by decide, by simp [World.init]⟩)
  have hev : ∀ ev ∈ [Event.fire 1 0, Event.bpm 90 2, Event.fire 1 (-5)],
      ev.isToggle = false := by
    intro ev h
    simp only [List.mem_cons, List.mem_singleton, List.not_mem_nil, or_false] at h
    rcases h with rfl | rfl | rfl <;> rfl
  ⟨⟨hr, rfl, hev⟩, no_click_after_stop (step World.init (.toggle 1)) 0 _ hr rfl hev⟩

/-! ## One live timer -/

/-- In a list of sources with pairwise distinct ids, at most one source passes
a test that only sources with the id `c` can pass. -/
theorem filter_length_le_one (p : Timeout → Bool) (c : Nat) (l : List Timeout)
    (hnd : (l.map Timeout.id).Nodup) (hp : ∀ t ∈ l, p t = true → t.id = c) :
    (l.filter p).length ≤ 1 := by
  induction l with
  | nil => simp
  | cons a l ih =>
    have hnd2 : (l.map Timeout.id).Nodup := (List.nodup_cons.mp hnd).2
    have hna : a.id ∉ l.map Timeout.id := (List.nodup_cons.mp hnd).1
    have hp2 : ∀ t ∈ l, p t = true → t.id = c := fun t ht => hp t (List.mem_cons_of_mem _ ht)
    cases hpa : p a
    · rw [List.filter_cons_of_neg (by simp [hpa])]
      exact ih hnd2 hp2
    · rw [List.filter_cons_of_pos hpa]
      have hac : a.id = c := hp a (List.mem_cons_self _ _) hpa
      have hnil : l.filter p = [] := by
        rw [List.filter_eq_nil_iff]
        intro t ht hpt
        apply hna
        rw [hac, ← hp2 t ht hpt]
        exact List.mem_map_of_mem _ ht
      rw [hnil]
      simp

/-- A source whose data carries its own id is live exactly when that id is the
current token and the window is playing. -/
theorem live_iff (w : World) (t : Timeout) (hd : t.data.source = t.id) :
    live w t = true ↔ (t.id = w.win.beep_source ∧ w.win.playing = true) := by
  unfold live
  rw [beep_snd_eq_true, hd]

/-- C4: in every state reachable from the initial one by toggles, BPM changes
and timer firings, the scheduler handing out fresh non-zero ids, at most one of
the attached timeouts is live; every other attached timeout, when it fires,
requests no click, leaves the window alone and is detached. -/
theorem at_most_one_live (w : World) (hr : Reachable w) :
    (w.timeouts.filter (live w)).length ≤ 1 ∧
    ∀ t ∈ w.timeouts, live w t = false → ∀ r : Int,
      (dispatch w t.id r).played = w.played ∧ (dispatch w t.id r).win = w.win ∧
      (∀ u ∈ (dispatch w t.id r).timeouts, u.id ≠ t.id) := by
  have hi := inv_of_reachable w hr
  constructor
  · apply filter_length_le_one (live w) w.win.beep_source w.timeouts hi.nodup
    intro t ht hl
    exact ((live_iff w t (hi.data_id t ht)).mp hl).1
  · intro t ht hl r
    obtain ⟨h1, h2, -, h4⟩ := dispatch_not_live w t r ht hi.data_id hl
    exact ⟨h1, h2, h4⟩

/-- The sample history is reachable. -/
theorem reachable_sample : Reachable World.sample := by
  unfold World.sample
  refine Reachable.step _ (Reachable.step _ (Reachable.step _ (Reachable.step _
    Reachable.init ?_) ?_) ?_) ?_
  · intro _
    exact ⟨by decide, by simp [World.init]⟩
  · intro _
    exact ⟨by decide, by simp [step, play_toggled, setup_timer, World.init]⟩
  · intro h
    simp [step, play_toggled, setup_timer, on_bpm_changed, World.init] at h
  · intro _
    exact ⟨by decide,
      by simp [step, play_toggled, setup_timer, on_bpm_changed, World.init]⟩

/-- C4 on the sample history (start, BPM change, stop, start): three timeouts
are attached and at most one of them is live. -/
theorem at_most_one_live_witness :
    Reachable World.sample ∧
    ((World.sample.timeouts.filter (live World.sample)).length ≤ 1 ∧
    ∀ t ∈ World.sample.timeouts, live World.sample t = false → ∀ r : Int,
      (dispatch World.sample t.id r).played = World.sample.played ∧
      (dispatch World.sample t.id r).win = World.sample.win ∧
      (∀ u ∈ (dispatch World.sample t.id r).timeouts, u.id ≠ t.id)) :=
  ⟨reachable_sample, at_most_one_live World.sample reachable_sample⟩

/-- The sample history has the three timeouts 1, 2, 3 attached, and the window
is playing with current token 3. -/
theorem sample_timeouts :
    World.sample.timeouts.map Timeout.id = [1, 2, 3] ∧
    World.sample.win.playing = true ∧ World.sample.win.beep_source = 3 := by
  simp [World.sample, step, play_toggled, setup_timer, on_bpm_changed, World.init]

/-- An issued non-zero id that is not the current token is not the current token
after any admissible event either: the token only changes to 0 or to a fresh id. -/
theorem stale_step (w : World) (ev : Event) (id0 : Nat) (h0 : id0 ≠ 0)
    (hiss : id0 ∈ w.issued) (hne : id0 ≠ w.win.beep_source) (ha : admissible w ev) :
    id0 ∈ (step w ev).issued ∧ id0 ≠ (step w ev).win.beep_source := by
  have hsetup : ∀ (v : World) (new_id : Nat), v.issued = w.issued → fresh v new_id →
      id0 ∈ (setup_timer v new_id).issued ∧ id0 ≠ (setup_timer v new_id).win.beep_source := by
    intro v new_id hv hf
    constructor
    · show id0 ∈ v.issued ++ [new_id]
      rw [hv]
      exact List.mem_append_left _ hiss
    · show id0 ≠ new_id
      intro h
      apply hf.2
      rw [hv, ← h]
      exact hiss
  cases ev with
  | toggle new_id =>
    show id0 ∈ (play_toggled w new_id).issued ∧ id0 ≠ (play_toggled w new_id).win.beep_source
    cases hact : w.action_state with
    | false =>
      rw [play_toggled_start w new_id hact]
      exact hsetup _ new_id rfl (ha hact)
    | true =>
      rw [play_toggled_stop w new_id hact]
      exact ⟨hiss, h0⟩
  | bpm value new_id =>
    show id0 ∈ (on_bpm_changed (w.withValue value) new_id).issued ∧
      id0 ≠ (on_bpm_changed (w.withValue value) new_id).win.beep_source
    cases hp : w.win.playing with
    | false =>
      have hp2 : (w.withValue value).win.playing = false := hp
      rw [on_bpm_changed_stopped _ _ hp2]
      exact ⟨hiss, hne⟩
    | true =>
      have hp2 : (w.withValue value).win.playing = true := hp
      have he : on_bpm_changed (w.withValue value) new_id
          = setup_timer (w.withValue value) new_id := by
        simp [on_bpm_changed, hp2]
      rw [he]
      exact hsetup _ new_id rfl (ha hp)
  | fire id r =>
    show id0 ∈ (dispatch w id r).issued ∧ id0 ≠ (dispatch w id r).win.beep_source
    obtain ⟨hw, -, hi, -⟩ := dispatch_frame w id r
    rw [hw, hi]
    exact ⟨hiss, hne⟩

/-- A superseded token stays superseded along any admissible run. -/
theorem stale_run (evs : List Event) (w : World) (id0 : Nat) (h0 : id0 ≠ 0)
    (hiss : id0 ∈ w.issued) (hne : id0 ≠ w.win.beep_source) (ha : admissibleRun w evs) :
    id0 ≠ (run w evs).win.beep_source := by
  induction evs generalizing w with
  | nil => exact hne
  | cons ev evs ih =>
    obtain ⟨h1, h2⟩ := stale_step w ev id0 h0 hiss hne ha.1
    exact ih (step w ev) h1 h2 ha.2

/-- The tick handler run for a token other than the current one does nothing
and returns `false`. -/
theorem beep_stale (w : World) (id0 : Nat) (r : Int) (hne : id0 ≠ w.win.beep_source) :
    beep w (BeepData.mk id0) r = (w, false) := by
  apply beep_of_snd_false
  rw [beep_snd]
  simp [hne]

/-- C3: changing the BPM while playing, the scheduler returning a fresh non-zero
id, leaves exactly one attached timeout that passes the tick check: the newly
created one, scheduled at the interval computed from the new value, whose id is
the new current token.  The superseded timeout is still attached; the tick
handler run for its token requests no click, changes nothing and returns
"stop", right after the change and after any further events (the scheduler
handing out fresh ids), and every timeout attached before the change, when it
fires, requests no click and is detached. -/
theorem bpm_change_while_playing (w : World) (value : ℚ) (new_id : Nat)
    (hr : Reachable w) (hp : w.win.playing = true) (hf : fresh w new_id) :
    (step w (.bpm value new_id)).timeouts
      = w.timeouts ++ [Timeout.mk new_id (interval_ms value) (BeepData.mk new_id)] ∧
    (step w (.bpm value new_id)).timeouts.filter (live (step w (.bpm value new_id)))
      = [Timeout.mk new_id (interval_ms value) (BeepData.mk new_id)] ∧
    (step w (.bpm value new_id)).win.beep_source = new_id ∧
    (step w (.bpm value new_id)).win.interval = interval_ms value ∧
    (∃ t ∈ w.timeouts, t.id = w.win.beep_source) ∧
    (∀ r : Int, beep (step w (.bpm value new_id)) (BeepData.mk w.win.beep_source) r
      = (step w (.bpm value new_id), false)) ∧
    (∀ (evs : List Event) (r : Int), admissibleRun (step w (.bpm value new_id)) evs →
      beep (run (step w (.bpm value new_id)) evs) (BeepData.mk w.win.beep_source) r
        = (run (step w (.bpm value new_id)) evs, false)) ∧
    (∀ t ∈ w.timeouts, ∀ r : Int,
      (dispatch (step w (.bpm value new_id)) t.id r).played
        = (step w (.bpm value new_id)).played ∧
      (∀ u ∈ (dispatch (step w (.bpm value new_id)) t.id r).timeouts, u.id ≠ t.id)) := by
  have hi := inv_of_reachable w hr
  have hi2 : Inv (step w (.bpm value new_id)) := inv_step w _ hi (fun _ => hf)
  have he : step w (.bpm value new_id) = setup_timer (w.withValue value) new_id := by
    have : (w.withValue value).win.playing = true := hp
    show on_bpm_changed (w.withValue value) new_id = _
    simp [on_bpm_changed, this]
  have hts : (step w (.bpm value new_id)).timeouts
      = w.timeouts ++ [Timeout.mk new_id (interval_ms value) (BeepData.mk new_id)] := by
    rw [he]; rfl
  have hbs : (step w (.bpm value new_id)).win.beep_source = new_id := by rw [he]; rfl
  have hpl : (step w (.bpm value new_id)).win.playing = true := by rw [he]; exact hp
  have hold : ∀ t ∈ w.timeouts, live (step w (.bpm value new_id)) t = false := by
    intro t ht
    cases hl : live (step w (.bpm value new_id)) t
    · rfl
    · have := ((live_iff _ t (hi.data_id t ht)).mp hl).1
      rw [hbs] at this
      exact absurd (this ▸ hi.issued_id t ht) hf.2
  have hnew : live (step w (.bpm value new_id))
      (Timeout.mk new_id (interval_ms value) (BeepData.mk new_id)) = true :=
    (live_iff _ _ rfl).mpr ⟨hbs.symm, hpl⟩
  obtain ⟨c, hc, hcid⟩ := hi.current hp
  have hcne : w.win.beep_source ≠ new_id := by
    intro h
    apply hf.2
    rw [← h, ← hcid]
    exact hi.issued_id c hc
  have hstale : w.win.beep_source ≠ (step w (.bpm value new_id)).win.beep_source := by
    rw [hbs]
    exact hcne
  have hciss : w.win.beep_source ∈ (step w (.bpm value new_id)).issued := by
    rw [he, ← hcid]
    exact List.mem_append_left _ (hi.issued_id c hc)
  have hc0 : w.win.beep_source ≠ 0 := by
    rw [← hcid]
    exact hi.id_ne_zero c hc
  refine ⟨hts, ?_, hbs, by rw [he]; rfl, ⟨c, hc, hcid⟩, fun r => beep_stale _ _ r hstale,
    fun evs r ha => beep_stale _ _ r (stale_run evs _ _ hc0 hciss hstale ha), ?_⟩
  · rw [hts, List.filter_append]
    have h1 : w.timeouts.filter (live (step w (.bpm value new_id))) = [] := by
      rw [List.filter_eq_nil_iff]
      intro t ht
      rw [hold t ht]
      simp
    rw [h1, List.filter_cons_of_pos hnew]
    rfl
  · intro t ht r
    have htm : t ∈ (step w (.bpm value new_id)).timeouts := by
      rw [hts]
      exact List.mem_append_left _ ht
    obtain ⟨h1, -, -, h4⟩ := dispatch_not_live _ t r htm hi2.data_id (hold t ht)
    exact ⟨h1, h4⟩

/-- C3 on a concrete state: the window was started with timeout 1 at 120 BPM,
and the range moves to 90 with the scheduler returning id 2. -/
theorem bpm_change_while_playing_witness :
    (Reachable (step World.init (.toggle 1)) ∧
      (step World.init (.toggle 1)).win.playing = true ∧
      fresh (step World.init (.toggle 1)) 2) ∧
    ((step (step World.init (.toggle 1)) (.bpm 90 2)).timeouts
      = (step World.init (.toggle 1)).timeouts
          ++ [Timeout.mk 2 (interval_ms 90) (BeepData.mk 2)] ∧
    (step (step World.init (.toggle 1)) (.bpm 90 2)).timeouts.filter
        (live (step (step World.init (.toggle 1)) (.bpm 90 2)))
      = [Timeout.mk 2 (interval_ms 90) (BeepData.mk 2)] ∧
    (step (step World.init (.toggle 1)) (.bpm 90 2)).win.beep_source = 2 ∧
    (step (step World.init (.toggle 1)) (.bpm 90 2)).win.interval = interval_ms 90 ∧
    (∃ t ∈ (step World.init (.toggle 1)).timeouts,
      t.id = (step World.init (.toggle 1)).win.beep_source) ∧
    (∀ r : Int, beep (step (step World.init (.toggle 1)) (.bpm 90 2))
        (BeepData.mk (step World.init (.toggle 1)).win.beep_source) r
      = (step (step World.init (.toggle 1)) (.bpm 90 2), false)) ∧
    (∀ (evs : List Event) (r : Int),
      admissibleRun (step (step World.init (.toggle 1)) (.bpm 90 2)) evs →
      beep (run (step (step World.init (.toggle 1)) (.bpm 90 2)) evs)
          (BeepData.mk (step World.init (.toggle 1)).win.beep_source) r
        = (run (step (step World.init (.toggle 1)) (.bpm 90 2)) evs, false)) ∧
    (∀ t ∈ (step World.init (.toggle 1)).timeouts, ∀ r : Int,
      (dispatch (step (step World.init (.toggle 1)) (.bpm 90 2)) t.id r).played
        = (step (step World.init (.toggle 1)) (.bpm 90 2)).played ∧
      (∀ u ∈ (dispatch (step (step World.init (.toggle 1)) (.bpm 90 2)) t.id r).timeouts,
        u.id ≠ t.id))) :=
  have hr : Reachable (step World.init (.toggle 1)) :=
    Reachable.step (.toggle 1) Reachable.init (fun _ => ⟨by decide, by simp [World.init]⟩)
  have hf : fresh (step World.init (.toggle 1)) 2 :=
    ⟨by decide, by simp [step, play_toggled, setup_timer, World.init]⟩
  ⟨⟨hr, rfl, hf⟩, bpm_change_while_playing (step World.init (.toggle 1)) 90 2 hr rfl hf⟩

end Beat
